import Mathlib

/-!
Shallow embedding of `src/app/ip_checker.py` (class `IPChecker`) from
pyproxy-async, together with the store primitives it drives.

Network effects are passed in as explicit oracle values: each HTTP request
made through the proxy under test is represented by an `Except Unit _`
value, where `Except.error` stands for any exception raised while
performing the request (timeout, connection error, unparseable body), and
`Except.ok` carries the decoded response.  The shared store (a redis
instance holding the pending check queue and the scored ip pool) is
represented by explicit list-valued state.
-/

/-- Rule specification, mirroring `src.lib.structs.RuleData` as used by
`rules_check`: a key, a target url, an optional substring the body must
contain (`none`/empty string are falsy in Python, disabling the substring
requirement), and an enable flag. -/
structure RuleData where
  key : String
  url : String
  contains : Option String
  enable : Bool
  deriving DecidableEq, Repr

/-- Per-pass check entry, mirroring the fields of `src.lib.structs.IPData`
that `IPChecker` reads or writes: the endpoint string, the outcome of the
http / https stages (`none` before the stage has run), the recorded
latency in seconds (`none` when never recorded), and the rule results
mapping (an insertion-ordered dict, embedded as an association list). -/
structure IPData where
  addr : String
  http : Option Bool
  https : Option Bool
  delay : Option ℚ
  rules : List (String × Bool)
  deriving DecidableEq, Repr

/-- Modelled from the spec: `IPData.with_str` lives in
`src/lib/structs.py`, which is not part of the excerpt.  Per the spec's
data model, a CheckEntry is "created fresh for each pass" with outcome
fields unset: endpoint string parsed, no http/https outcome, no latency,
empty rule results. -/
def IPData.with_str (s : String) : IPData :=
  { addr := s, http := none, https := none, delay := none, rules := [] }

/-- Python truthiness of an optional string (`not result.get('origin')`,
`if rule.contains`): `None` and the empty string are falsy. -/
def optTruthy : Option String → Bool
  | none => false
  | some s => !(s == "")

/-- Substring search on character lists: does the needle occur anywhere in
the haystack?  This is `haystack.find(needle) >= 0` in Python. -/
def subSearch (needle : List Char) : List Char → Bool
  | [] => needle.isEmpty
  | c :: t => needle.isPrefixOf (c :: t) || subSearch needle t

/-- `body.find(sub) >= 0` on strings. -/
def strContainsSub (body sub : String) : Bool :=
  subSearch sub.toList body.toList

/-- The echo response seen by `http_check`/`https_check`:
`Except.error` for any request/parse failure, `Except.ok o` for a parsed
json body whose `origin` field is `o` (`none` when the field is absent). -/
abbrev EchoResp := Except Unit (Option String)

/-- `IPChecker.http_check`: issue a GET against the echo service through
the proxy; on a parsed response whose `origin` field is truthy, record the
wall-clock latency `elapsed` and set `http := true`; any exception path
(request failure, parse failure, falsy `origin` raising
`ValidationFailException`) sets `http := false` and leaves the latency
untouched. -/
def http_check (ip : IPData) (resp : EchoResp) (elapsed : ℚ) : IPData :=
  match resp with
  | .ok origin =>
    if optTruthy origin then
      { ip with delay := some elapsed, http := some true }
    else
      { ip with http := some false }
  | .error _ => { ip with http := some false }

/-- `IPChecker.https_check`: the same echo check with the scheme switched
to https; sets `https` and records no latency. -/
def https_check (ip : IPData) (resp : EchoResp) : IPData :=
  match resp with
  | .ok origin =>
    if optTruthy origin then { ip with https := some true }
    else { ip with https := some false }
  | .error _ => { ip with https := some false }

/-- Outcome of one rule probe in `rules_check`: false on any request
failure; on a response body, false exactly when `rule.contains` is truthy
and the body does not contain it (`ValidationFailException` raised and
caught), true otherwise. -/
def ruleOutcome (rule : RuleData) (resp : Except Unit String) : Bool :=
  match resp with
  | .error _ => false
  | .ok body =>
    match rule.contains with
    | none => true
    | some sub => if sub == "" then true else strContainsSub body sub

/-- Python dict assignment `rules[rule.key] = v` on an insertion-ordered
association list: replace in place if the key is present, else append. -/
def insertKV : List (String × Bool) → String → Bool → List (String × Bool)
  | [], k, v => [(k, v)]
  | (k', v') :: rest, k, v =>
    if k' = k then (k, v) :: rest else (k', v') :: insertKV rest k v

/-- Python dict lookup `rules[k]` as an option. -/
def lookupKV : List (String × Bool) → String → Option Bool
  | [], _ => none
  | (k', v) :: rest, k => if k' = k then some v else lookupKV rest k

/-- The `for rule in Config.RULES` loop of `rules_check`, building the
fresh `rules` dict.  `probe i` is the oracle for the request made on
behalf of the rule at position `i` of the configured list; disabled rules
are skipped and never probed. -/
def rulesLoop (probe : Nat → Except Unit String) :
    List RuleData → Nat → List (String × Bool) → List (String × Bool)
  | [], _, acc => acc
  | r :: rest, i, acc =>
    if r.enable then
      rulesLoop probe rest (i + 1) (insertKV acc r.key (ruleOutcome r (probe i)))
    else
      rulesLoop probe rest (i + 1) acc

/-- `IPChecker.rules_check`: start from an empty dict `rules = {}`, run
every enabled configured rule through its probe, and overwrite `ip.rules`
with the freshly built dict. -/
def rules_check (cfg : List RuleData) (probe : Nat → Except Unit String)
    (ip : IPData) : IPData :=
  { ip with rules := rulesLoop probe cfg 0 [] }

/-- The network oracle for one validation pass: one echo response and a
clock reading for the http stage, one echo response for the https stage,
and one text response per configured rule. -/
structure Oracle where
  httpResp : EchoResp
  httpElapsed : ℚ
  httpsResp : EchoResp
  ruleResp : Nat → Except Unit String

/-- The validation-pipeline portion of `IPChecker.start_check`: the three
stages run unconditionally in sequence on the freshly parsed entry,
sharing one client session. -/
def start_check (cfg : List RuleData) (o : Oracle) (ipStr : String) : IPData :=
  rules_check cfg o.ruleResp
    (https_check (http_check (IPData.with_str ipStr) o.httpResp o.httpElapsed)
      o.httpsResp)

/-! ## Store state and the periodic tasks -/

/-- The mutable store state the checker tasks drive: the pending check
queue `Config.REDIS_KEY_CHECK_POOL` (a redis list, `rpush` appends on the
right, given here left-to-right in pop order) and the verified ip pool
`Config.REDIS_KEY_IP_POOL` (a redis sorted set of endpoint strings with
integer scores, given as an association list). -/
structure StoreState where
  checkPool : List String
  ipPool : List (String × Int)
  deriving DecidableEq, Repr

/-- `redis.zrangebyscore key lo hi`: the members of the sorted set whose
score lies in `[lo, hi]`, both bounds inclusive. -/
def zrangebyscore (pool : List (String × Int)) (lo hi : Int) : List String :=
  (pool.filter fun p => decide (lo ≤ p.2) && decide (p.2 ≤ hi)).map Prod.fst

/-- Modelled from the spec: `IPSaver.remove_ip` lives in
`src/app/ip_saver.py`, which is not part of the excerpt.  Per the spec's
score-ledger contract, `remove(list(Endpoint))` "deletes entries from
VerifiedPool". -/
def removeIps (pool : List (String × Int)) (ips : List String) :
    List (String × Int) :=
  pool.filter fun p => !(ips.contains p.1)

/-- `IPChecker.remove_low_score_ip`: query the pool for all endpoints with
score in `[-100, 0]`; if any were found, remove exactly those endpoints
via the saver. -/
def remove_low_score_ip (pool : List (String × Int)) : List (String × Int) :=
  let needs_remove := zrangebyscore pool (-100) 0
  if needs_remove.isEmpty then pool else removeIps pool needs_remove

/-- Length of Python's `range(start, stop, step)` for a positive `step`:
`0` when `stop <= start`, else the ceiling of `(stop - start) / step`. -/
def pyRangeLen (start stop step : Int) : Nat :=
  ((stop - start).toNat + step.toNat - 1) / step.toNat

/-- Python's `range(start, stop, step)` for a positive `step`. -/
def pyRange (start stop step : Int) : List Int :=
  (List.range (pyRangeLen start stop step)).map
    fun k : Nat => start + step * (k : Int)

/-- The band starts visited by `resend_check_ip`:
`range(MINI_SCORE + 1, MAX_SCORE + INC_SCORE, INC_SCORE)`. -/
def bandStarts (mini maxs inc : Int) : List Int :=
  pyRange (mini + 1) (maxs + inc) inc

/-- The band-scan loop of `resend_check_ip`: for each band start `i`, in
order, fetch the pool members with score in `[i, i + INC_SCORE - 1]` and,
when the batch is nonempty, `push_to_pool` appends it to the check
queue (`rpush`). -/
def resendLoop (inc : Int) (pool : List (String × Int)) :
    List Int → List String → List String
  | [], queue => queue
  | i :: rest, queue =>
    let ips := zrangebyscore pool i (i + inc - 1)
    resendLoop inc pool rest (if ips.isEmpty then queue else queue ++ ips)

/-- `IPChecker.resend_check_ip`: if the check queue already holds at least
`|pool| * RE_PUSH_TO_CHECK_POOL_RATE` entries, return with no mutation;
otherwise run the band scan, pushing each band's members onto the check
queue. -/
def resend_check_ip (mini maxs inc : Int) (rate : ℚ) (st : StoreState) :
    StoreState :=
  if (st.ipPool.length : ℚ) * rate ≤ (st.checkPool.length : ℚ) then st
  else
    { st with
      checkPool := resendLoop inc st.ipPool (bandStarts mini maxs inc) st.checkPool }

/-- The concatenation, in band order, of all band queries of one
rebalance cycle — the endpoints `resend_check_ip` pushes when its guard
passes. -/
def bandPushes (mini maxs inc : Int) (pool : List (String × Int)) :
    List String :=
  (bandStarts mini maxs inc).flatMap fun i => zrangebyscore pool i (i + inc - 1)

/-- Modelled from the spec: `Redis.last_time_check` lives in
`src/lib/redis_lib.py`, which is not part of the excerpt.  Per the spec's
run-deduplication guard, it reports whether a last-run timestamp key is
still present, the key being written with an expiry equal to the check
interval: with `lastRun` the recorded stamp, the key is observable at time
`now` exactly when `now < stamp + interval`. -/
def last_time_check (now interval : Int) (lastRun : Option Int) : Bool :=
  match lastRun with
  | none => false
  | some t => decide (now < t + interval)

/-- State seen by the recheck task: the last-run timestamp key
`recheck_ip` plus the store collections. -/
structure CheckerState where
  lastRun : Option Int
  store : StoreState
  deriving DecidableEq, Repr

/-- One guarded iteration of `IPChecker.recheck_ip_task`, at wall-clock
time `now`: if the last-run key is still live, do nothing; otherwise stamp
the key (`Redis.save_last_time`, modelled from the spec as writing the
current time) and run `resend_check_ip`. -/
def recheck_iter (mini maxs inc : Int) (rate : ℚ) (interval now : Int)
    (st : CheckerState) : CheckerState :=
  if last_time_check now interval st.lastRun then st
  else
    { lastRun := some now,
      store := resend_check_ip mini maxs inc rate st.store }

/-- Observable events emitted by a check-task iteration. -/
inductive Ev where
  | log (msg : String)
  | sleep (n : Nat)
  deriving DecidableEq, Repr

/-- `IPChecker.handle_task_exception`: log the error and back off for 5
time units. -/
def handle_task_exception (e : String) : List Ev :=
  [Ev.log ("[error] " ++ e), Ev.sleep 5]

/-- One iteration of `IPChecker.check_task` in TEST mode (the loop body
runs once and then breaks): `body` is the outcome of `start_check` over
the ambient state — `Except.error e` when the iteration's body raised.
The iteration returns the new state and the emitted events; an error
leaves the state as it was, is logged, and is followed by the fixed
backoff. -/
def check_task_test (body : Except String StoreState) (st : StoreState) :
    StoreState × List Ev :=
  match body with
  | .ok st' => (st', [])
  | .error e => (st, handle_task_exception e)

/-- Success condition of an echo check: the request produced a parseable
response whose `origin` field is (truthily) present. -/
def echoSuccess (resp : EchoResp) : Prop :=
  ∃ o, resp = Except.ok o ∧ optTruthy o = true

/-- The keys of the enabled configured rules, in configuration order. -/
def enabledKeys (cfg : List RuleData) : List String :=
  (cfg.filter (·.enable)).map (·.key)

/-- The entries the `rules_check` loop produces when started at position
`i` of the configured rule list: one `(key, outcome)` pair per enabled
rule, in configuration order. -/
def ruleEntries (probe : Nat → Except Unit String) :
    List RuleData → Nat → List (String × Bool)
  | [], _ => []
  | r :: rest, i =>
    if r.enable then
      (r.key, ruleOutcome r (probe i)) :: ruleEntries probe rest (i + 1)
    else
      ruleEntries probe rest (i + 1)

/-! ## Helper lemmas about the store primitives -/

theorem mem_zrangebyscore {pool : List (String × Int)} {lo hi : Int} {e : String} :
    e ∈ zrangebyscore pool lo hi ↔ ∃ s, (e, s) ∈ pool ∧ lo ≤ s ∧ s ≤ hi := by
  simp only [zrangebyscore, List.mem_map, List.mem_filter, Bool.and_eq_true,
    decide_eq_true_eq]
  constructor
  · rintro ⟨⟨a, s⟩, ⟨hm, h1, h2⟩, rfl⟩
    exact ⟨s, hm, h1, h2⟩
  · rintro ⟨s, hm, h1, h2⟩
    exact ⟨(e, s), ⟨hm, h1, h2⟩, rfl⟩

theorem score_unique {pool : List (String × Int)} (hnd : (pool.map Prod.fst).Nodup)
    {e : String} {s s' : Int} (h : (e, s) ∈ pool) (h' : (e, s') ∈ pool) : s = s' := by
  induction pool with
  | nil => cases h
  | cons p rest ih =>
    simp only [List.map_cons, List.nodup_cons, List.mem_map] at hnd
    rcases hnd with ⟨hp, hrest⟩
    rcases List.mem_cons.mp h with h0 | h0 <;>
      rcases List.mem_cons.mp h' with h1 | h1
    · exact (Prod.ext_iff.mp (h0.trans h1.symm)).2
    · exact absurd ⟨(e, s'), h1, by rw [← h0]⟩ hp
    · exact absurd ⟨(e, s), h0, by rw [← h1]⟩ hp
    · exact ih hrest h0 h1

/-- C3 helper: removal by a member list keeps exactly the pairs whose key
is not listed. -/
theorem mem_removeIps {pool : List (String × Int)} {ips : List String}
    {e : String} {s : Int} :
    (e, s) ∈ removeIps pool ips ↔ (e, s) ∈ pool ∧ e ∉ ips := by
  simp [removeIps, List.mem_filter]

/-- C3: one Eviction Sweeper cycle (`remove_low_score_ip`) removes from
the verified pool exactly the endpoints whose score lies in `[-100, 0]`
(hard floor `-100` and `0` both inclusive) and nothing else. -/
theorem C3_eviction_exact {pool : List (String × Int)}
    (hnd : (pool.map Prod.fst).Nodup) (e : String) (s : Int) :
    (e, s) ∈ remove_low_score_ip pool ↔
      (e, s) ∈ pool ∧ ¬(-100 ≤ s ∧ s ≤ 0) := by
  unfold remove_low_score_ip
  by_cases hemp : (zrangebyscore pool (-100) 0).isEmpty
  · rw [if_pos hemp]
    have hz : zrangebyscore pool (-100) 0 = [] := List.isEmpty_iff.mp hemp
    constructor
    · intro hm
      refine ⟨hm, fun hr => ?_⟩
      have : e ∈ zrangebyscore pool (-100) 0 :=
        mem_zrangebyscore.mpr ⟨s, hm, hr.1, hr.2⟩
      rw [hz] at this
      cases this
    · exact fun h => h.1
  · rw [if_neg hemp, mem_removeIps]
    constructor
    · rintro ⟨hm, hni⟩
      refine ⟨hm, fun hr => hni (mem_zrangebyscore.mpr ⟨s, hm, hr.1, hr.2⟩)⟩
    · rintro ⟨hm, hr⟩
      refine ⟨hm, fun hi => ?_⟩
      rcases mem_zrangebyscore.mp hi with ⟨s', hm', h1, h2⟩
      exact hr (score_unique hnd hm hm' ▸ ⟨h1, h2⟩)

/-- C3 witness: on the pool with scores `{-50, 0, 1, 100}` the sweep
removes the `-50` and `0` entries and retains `1` and `100`. -/
theorem C3_eviction_exact_witness :
    (([("a", (-50 : Int)), ("b", 0), ("c", 1), ("d", 100)].map Prod.fst).Nodup
        ∧ remove_low_score_ip [("a", -50), ("b", 0), ("c", 1), ("d", 100)]
            = [("c", 1), ("d", 100)])
      ∧ (("b", (0 : Int)) ∈
            remove_low_score_ip [("a", -50), ("b", 0), ("c", 1), ("d", 100)] ↔
          ("b", (0 : Int)) ∈ [("a", (-50 : Int)), ("b", 0), ("c", 1), ("d", 100)]
            ∧ ¬(-100 ≤ (0 : Int) ∧ (0 : Int) ≤ 0)) :=
  ⟨⟨by decide, by decide⟩,
    C3_eviction_exact (by decide) "b" 0⟩

/-- C4: if the pending queue already holds at least `pool size × rate`
entries, `resend_check_ip` returns immediately: nothing is pushed and the
store is unchanged. -/
theorem C4_backpressure_skip (mini maxs inc : Int) (rate : ℚ) (st : StoreState)
    (h : (st.ipPool.length : ℚ) * rate ≤ (st.checkPool.length : ℚ)) :
    resend_check_ip mini maxs inc rate st = st := by
  unfold resend_check_ip
  rw [if_pos h]

/-- C4 witness: queue length 10, pool size 10, rate 1.0 — no pushes. -/
theorem C4_backpressure_skip_witness :
    (((StoreState.mk (List.replicate 10 "q")
            (List.replicate 10 ("e", (50 : Int)))).ipPool.length : ℚ) * 1
        ≤ ((StoreState.mk (List.replicate 10 "q")
            (List.replicate 10 ("e", (50 : Int)))).checkPool.length : ℚ))
      ∧ resend_check_ip 0 100 10 1
            (StoreState.mk (List.replicate 10 "q")
              (List.replicate 10 ("e", (50 : Int))))
          = StoreState.mk (List.replicate 10 "q")
              (List.replicate 10 ("e", (50 : Int))) :=
  ⟨by simp, C4_backpressure_skip 0 100 10 1 _ (by simp)⟩

/-- C9: a check-loop iteration whose body raised is absorbed at the loop
boundary — the iteration still returns (with the state it started from),
the error is logged, and the fixed 5-unit backoff follows; a successful
body yields the new state with no backoff. -/
theorem C9_check_task_absorbs_errors :
    (∀ (e : String) (st : StoreState),
        check_task_test (Except.error e) st
          = (st, [Ev.log ("[error] " ++ e), Ev.sleep 5]))
      ∧ (∀ (st st' : StoreState), check_task_test (Except.ok st') st = (st', [])) :=
  ⟨fun _ _ => rfl, fun _ _ => rfl⟩

/-- C5: when the first of two rebalancer invocations records the last-run
stamp, a second invocation within the configured interval observes it and
mutates nothing; and an invocation stamps the timestamp (and proceeds to
the band scan) exactly when no run is recorded within the interval. -/
theorem C5_recheck_dedup (mini maxs inc : Int) (rate : ℚ)
    (interval t0 t1 : Int) (st : CheckerState)
    (hfirst : last_time_check t0 interval st.lastRun = false)
    (hwithin : t1 < t0 + interval) :
    ((recheck_iter mini maxs inc rate interval t0 st).lastRun = some t0
        ∧ (recheck_iter mini maxs inc rate interval t0 st).store
            = resend_check_ip mini maxs inc rate st.store)
      ∧ recheck_iter mini maxs inc rate interval t1
            (recheck_iter mini maxs inc rate interval t0 st)
          = recheck_iter mini maxs inc rate interval t0 st
      ∧ ∀ (now : Int) (st' : CheckerState),
          last_time_check now interval st'.lastRun = true →
            recheck_iter mini maxs inc rate interval now st' = st' := by
  have hskip : ∀ (now : Int) (st' : CheckerState),
      last_time_check now interval st'.lastRun = true →
        recheck_iter mini maxs inc rate interval now st' = st' := by
    intro now st' h
    unfold recheck_iter
    rw [if_pos h]
  have h1 : recheck_iter mini maxs inc rate interval t0 st
      = { lastRun := some t0,
          store := resend_check_ip mini maxs inc rate st.store } := by
    unfold recheck_iter
    rw [if_neg (by rw [hfirst]; exact Bool.false_ne_true)]
  refine ⟨by rw [h1]; exact ⟨rfl, rfl⟩, ?_, hskip⟩
  apply hskip
  rw [h1]
  simp only [last_time_check, decide_eq_true_eq]
  exact hwithin

/-- C5 witness: interval 100, first run at time 0, second at time 50. -/
theorem C5_recheck_dedup_witness :
    (last_time_check 0 100 (CheckerState.mk none (StoreState.mk [] [])).lastRun
          = false
        ∧ (50 : Int) < 0 + 100)
      ∧ recheck_iter 0 100 10 1 100 50 (recheck_iter 0 100 10 1 100 0
            (CheckerState.mk none (StoreState.mk [] [])))
          = recheck_iter 0 100 10 1 100 0
              (CheckerState.mk none (StoreState.mk [] [])) :=
  ⟨⟨rfl, by decide⟩,
    (C5_recheck_dedup 0 100 10 1 100 0 50
      (CheckerState.mk none (StoreState.mk [] [])) rfl (by decide)).2.1⟩

/-- C7: after the http stage, `http` is true iff the echo response was
parseable with the origin field present; exactly then the (positive)
wall-clock latency is recorded on the entry, and on any failure `http` is
false and the latency field is left untouched. -/
theorem C7_http_stage (ip : IPData) (resp : EchoResp) (elapsed : ℚ)
    (hel : 0 < elapsed) :
    ((http_check ip resp elapsed).http = some true ↔ echoSuccess resp)
      ∧ (echoSuccess resp →
          (http_check ip resp elapsed).delay = some elapsed
            ∧ ∃ d, (http_check ip resp elapsed).delay = some d ∧ 0 < d)
      ∧ (¬echoSuccess resp →
          (http_check ip resp elapsed).http = some false
            ∧ (http_check ip resp elapsed).delay = ip.delay) := by
  match resp with
  | .error u =>
    have hns : ¬echoSuccess (Except.error u : EchoResp) := by
      rintro ⟨o, ho, -⟩; cases ho
    exact ⟨by simp [http_check, hns], fun h => absurd h hns,
      fun _ => ⟨rfl, rfl⟩⟩
  | .ok origin =>
    by_cases ht : optTruthy origin = true
    · have hs : echoSuccess (Except.ok origin : EchoResp) := ⟨origin, rfl, ht⟩
      refine ⟨by simp [http_check, ht, hs], fun _ => ?_, fun h => absurd hs h⟩
      exact ⟨by simp [http_check, ht], elapsed, by simp [http_check, ht], hel⟩
    · have hns : ¬echoSuccess (Except.ok origin : EchoResp) := by
        rintro ⟨o, ho, hto⟩
        cases ho
        exact ht hto
      refine ⟨?_, fun h => absurd h hns, fun _ => ?_⟩
      · simp only [http_check, if_neg ht]
        constructor
        · intro h
          exact absurd (Option.some.injEq .. ▸ h) (by simp)
        · intro h
          exact absurd h hns
      · exact ⟨by simp [http_check, ht], by simp [http_check, ht]⟩

/-- C7 witness: a response carrying `origin = "9.9.9.9"` with elapsed time
one second on a fresh entry. -/
theorem C7_http_stage_witness :
    (0 : ℚ) < 1
      ∧ ((http_check (IPData.with_str "1.2.3.4:80")
            (Except.ok (some "9.9.9.9")) 1).http = some true ↔
          echoSuccess (Except.ok (some "9.9.9.9"))) :=
  ⟨by norm_num,
    (C7_http_stage (IPData.with_str "1.2.3.4:80")
      (Except.ok (some "9.9.9.9")) 1 (by norm_num)).1⟩

/-- C6: the https stage runs unconditionally after the http stage, and its
outcome does not depend on the http stage's network result: two runs that
differ only in the http oracle produce the same `https` field, and all
four pass/fail combinations are reachable. -/
theorem C6_https_independent_of_http :
    (∀ (cfg : List RuleData) (s : String) (hr : EchoResp)
        (rp : Nat → Except Unit String) (r1 r2 : EchoResp) (e1 e2 : ℚ),
        (start_check cfg (Oracle.mk r1 e1 hr rp) s).https
          = (start_check cfg (Oracle.mk r2 e2 hr rp) s).https)
      ∧ (∃ o : Oracle, (start_check [] o "p").http = some false
            ∧ (start_check [] o "p").https = some true)
      ∧ (∃ o : Oracle, (start_check [] o "p").http = some true
            ∧ (start_check [] o "p").https = some false)
      ∧ (∃ o : Oracle, (start_check [] o "p").http = some true
            ∧ (start_check [] o "p").https = some true)
      ∧ (∃ o : Oracle, (start_check [] o "p").http = some false
            ∧ (start_check [] o "p").https = some false) := by
  refine ⟨?_, ?_, ?_, ?_, ?_⟩
  · intro cfg s hr rp r1 r2 e1 e2
    show (https_check (http_check (IPData.with_str s) r1 e1) hr).https
      = (https_check (http_check (IPData.with_str s) r2 e2) hr).https
    cases hr with
    | error u => cases r1 <;> cases r2 <;> simp [http_check, https_check]
    | ok o => cases r1 <;> cases r2 <;> simp only [http_check, https_check] <;>
        split <;> split <;> rfl
  · exact ⟨Oracle.mk (Except.error ()) 1 (Except.ok (some "x"))
      (fun _ => Except.error ()), rfl, rfl⟩
  · exact ⟨Oracle.mk (Except.ok (some "x")) 1 (Except.error ())
      (fun _ => Except.error ()), rfl, rfl⟩
  · exact ⟨Oracle.mk (Except.ok (some "x")) 1 (Except.ok (some "x"))
      (fun _ => Except.error ()), rfl, rfl⟩
  · exact ⟨Oracle.mk (Except.error ()) 1 (Except.error ())
      (fun _ => Except.error ()), rfl, rfl⟩

/-! ## The rule stage: dict construction lemmas -/

theorem mem_keys_insertKV {m : List (String × Bool)} {k k' : String} {v : Bool} :
    k' ∈ (insertKV m k v).map Prod.fst ↔ k' = k ∨ k' ∈ m.map Prod.fst := by
  induction m with
  | nil => simp [insertKV]
  | cons p rest ih =>
    obtain ⟨pk, pv⟩ := p
    by_cases h : pk = k
    · subst h
      simp [insertKV]
    · simp only [insertKV, if_neg h, List.map_cons, List.mem_cons, ih]
      tauto

theorem insertKV_of_notMem {m : List (String × Bool)} {k : String} {v : Bool}
    (h : k ∉ m.map Prod.fst) : insertKV m k v = m ++ [(k, v)] := by
  induction m with
  | nil => rfl
  | cons p rest ih =>
    obtain ⟨pk, pv⟩ := p
    simp only [List.map_cons, List.mem_cons, not_or] at h
    have hne : ¬pk = k := fun he => h.1 he.symm
    simp [insertKV, hne, ih h.2]

theorem enabledKeys_cons_enable {r : RuleData} {rest : List RuleData}
    (h : r.enable = true) :
    enabledKeys (r :: rest) = r.key :: enabledKeys rest := by
  simp [enabledKeys, List.filter_cons, h]

theorem enabledKeys_cons_disable {r : RuleData} {rest : List RuleData}
    (h : ¬r.enable = true) : enabledKeys (r :: rest) = enabledKeys rest := by
  simp [enabledKeys, List.filter_cons, h]

theorem keys_ruleEntries (probe : Nat → Except Unit String)
    (cfg : List RuleData) (i : Nat) :
    (ruleEntries probe cfg i).map Prod.fst = enabledKeys cfg := by
  induction cfg generalizing i with
  | nil => rfl
  | cons r rest ih =>
    by_cases h : r.enable
    · rw [enabledKeys_cons_enable h]
      simp only [ruleEntries, if_pos h, List.map_cons]
      rw [ih]
    · rw [enabledKeys_cons_disable h]
      simp only [ruleEntries, if_neg h]
      rw [ih]

theorem rulesLoop_eq_append (probe : Nat → Except Unit String) :
    ∀ (cfg : List RuleData) (i : Nat) (acc : List (String × Bool)),
      (enabledKeys cfg).Nodup →
      (∀ k, k ∈ acc.map Prod.fst → k ∉ enabledKeys cfg) →
      rulesLoop probe cfg i acc = acc ++ ruleEntries probe cfg i := by
  intro cfg
  induction cfg with
  | nil => intro i acc _ _; simp [rulesLoop, ruleEntries]
  | cons r rest ih =>
    intro i acc hnd hdisj
    by_cases h : r.enable
    · have hkeys : enabledKeys (r :: rest) = r.key :: enabledKeys rest := by
        simp [enabledKeys, List.filter_cons, h]
      rw [hkeys] at hnd hdisj
      rw [List.nodup_cons] at hnd
      have hknotin : r.key ∉ acc.map Prod.fst := fun hk =>
        hdisj r.key hk (List.mem_cons_self ..)
      simp only [rulesLoop, if_pos h, ruleEntries]
      rw [insertKV_of_notMem hknotin,
        ih (i + 1) (acc ++ [(r.key, ruleOutcome r (probe i))]) hnd.2 ?_,
        List.append_assoc]
      · rfl
      · intro k hk
        rcases (by simpa using hk :
            k ∈ acc.map Prod.fst ∨ k = r.key) with h1 | h1
        · exact fun hmem => hdisj k h1 (List.mem_cons_of_mem _ hmem)
        · subst h1; exact hnd.1
    · have hkeys : enabledKeys (r :: rest) = enabledKeys rest := by
        simp [enabledKeys, List.filter_cons, h]
      rw [hkeys] at hnd hdisj
      simp only [rulesLoop, if_neg h, ruleEntries]
      exact ih (i + 1) acc hnd hdisj

theorem lookupKV_ruleEntries (probe : Nat → Except Unit String) :
    ∀ (cfg : List RuleData) (i0 i : Nat) (r : RuleData),
      (enabledKeys cfg).Nodup → cfg[i]? = some r → r.enable = true →
      lookupKV (ruleEntries probe cfg i0) r.key
        = some (ruleOutcome r (probe (i0 + i))) := by
  intro cfg
  induction cfg with
  | nil => intro i0 i r _ hi _; simp at hi
  | cons r0 rest ih =>
    intro i0 i r hnd hi hen
    cases i with
    | zero =>
      rw [List.getElem?_cons_zero, Option.some.injEq] at hi
      subst hi
      simp [ruleEntries, hen, lookupKV]
    | succ j =>
      rw [List.getElem?_cons_succ] at hi
      have hmem : r.key ∈ enabledKeys rest := by
        simp only [enabledKeys, List.mem_map, List.mem_filter]
        exact ⟨r, ⟨List.getElem?_mem hi, hen⟩, rfl⟩
      have hidx : i0 + 1 + j = i0 + (j + 1) := by omega
      by_cases h : r0.enable
      · have hkeys : enabledKeys (r0 :: rest) = r0.key :: enabledKeys rest := by
          simp [enabledKeys, List.filter_cons, h]
        rw [hkeys, List.nodup_cons] at hnd
        have hne : r0.key ≠ r.key := fun he => hnd.1 (he ▸ hmem)
        simp only [ruleEntries, if_pos h, lookupKV, if_neg hne]
        rw [ih (i0 + 1) j r hnd.2 hi hen, hidx]
      · have hkeys : enabledKeys (r0 :: rest) = enabledKeys rest := by
          simp [enabledKeys, List.filter_cons, h]
        rw [hkeys] at hnd
        simp only [ruleEntries, if_neg h]
        rw [ih (i0 + 1) j r hnd hi hen, hidx]

theorem lookupKV_rules_check (cfg : List RuleData)
    (probe : Nat → Except Unit String) (ip : IPData) (i : Nat) (r : RuleData)
    (hnd : (enabledKeys cfg).Nodup) (hi : cfg[i]? = some r)
    (hen : r.enable = true) :
    lookupKV (rules_check cfg probe ip).rules r.key
      = some (ruleOutcome r (probe i)) := by
  show lookupKV (rulesLoop probe cfg 0 []) r.key = _
  rw [rulesLoop_eq_append probe cfg 0 [] hnd (by simp), List.nil_append]
  simpa using lookupKV_ruleEntries probe cfg 0 i r hnd hi hen

theorem mem_keys_rulesLoop (probe : Nat → Except Unit String) :
    ∀ (cfg : List RuleData) (i : Nat) (acc : List (String × Bool)) (k : String),
      k ∈ (rulesLoop probe cfg i acc).map Prod.fst
        ↔ k ∈ enabledKeys cfg ∨ k ∈ acc.map Prod.fst := by
  intro cfg
  induction cfg with
  | nil => intro i acc k; simp [rulesLoop, enabledKeys]
  | cons r rest ih =>
    intro i acc k
    by_cases h : r.enable
    · simp only [rulesLoop, if_pos h]
      rw [ih, enabledKeys_cons_enable h]
      simp only [mem_keys_insertKV, List.mem_cons]
      tauto
    · simp only [rulesLoop, if_neg h]
      rw [ih, enabledKeys_cons_disable h]

theorem lookupKV_isSome_iff {m : List (String × Bool)} {k : String} :
    (∃ b, lookupKV m k = some b) ↔ k ∈ m.map Prod.fst := by
  induction m with
  | nil => simp [lookupKV]
  | cons p rest ih =>
    obtain ⟨pk, pv⟩ := p
    by_cases h : pk = k
    · subst h; simp [lookupKV]
    · have hne : ¬k = pk := fun he => h he.symm
      simp [lookupKV, h, ih, hne]

/-- C10: after the rule stage the entry's rule-results mapping has been
rebuilt from scratch: its key set is exactly the set of enabled rule keys
(disabled rules contribute no entry), and whatever rule results the entry
carried before the pass are discarded — the rebuilt mapping does not
depend on the incoming entry at all. -/
theorem C10_rules_rebuilt (cfg : List RuleData)
    (probe : Nat → Except Unit String) (ip : IPData) :
    (∀ k, k ∈ (rules_check cfg probe ip).rules.map Prod.fst
        ↔ k ∈ enabledKeys cfg)
      ∧ ∀ ip' : IPData,
          (rules_check cfg probe ip).rules = (rules_check cfg probe ip').rules := by
  refine ⟨fun k => ?_, fun _ => rfl⟩
  show k ∈ (rulesLoop probe cfg 0 []).map Prod.fst ↔ _
  rw [mem_keys_rulesLoop]
  simp

theorem https_check_preserves_http (ip : IPData) (r : EchoResp) :
    (https_check ip r).http = ip.http := by
  cases r with
  | ok o => by_cases h : optTruthy o = true <;> simp [https_check, h]
  | error u => rfl

theorem http_check_resolves (ip : IPData) (resp : EchoResp) (el : ℚ) :
    ∃ b, (http_check ip resp el).http = some b := by
  cases resp with
  | ok o =>
    by_cases h : optTruthy o = true
    · exact ⟨true, by simp [http_check, h]⟩
    · exact ⟨false, by simp [http_check, h]⟩
  | error u => exact ⟨false, rfl⟩

theorem https_check_resolves (ip : IPData) (resp : EchoResp) :
    ∃ b, (https_check ip resp).https = some b := by
  cases resp with
  | ok o =>
    by_cases h : optTruthy o = true
    · exact ⟨true, by simp [https_check, h]⟩
    · exact ⟨false, by simp [https_check, h]⟩
  | error u => exact ⟨false, rfl⟩

/-- C1: one pass of the validation pipeline resolves every stage to a
boolean: whatever the network oracle does, after `start_check` the entry
has `http = some _`, `https = some _`, and a boolean recorded for every
enabled configured rule — no stage is left unresolved and no error
escapes a stage. -/
theorem C1_pipeline_resolves (cfg : List RuleData) (o : Oracle) (s : String) :
    (∃ b1, (start_check cfg o s).http = some b1)
      ∧ (∃ b2, (start_check cfg o s).https = some b2)
      ∧ ∀ r ∈ cfg, r.enable = true →
          ∃ b, lookupKV (start_check cfg o s).rules r.key = some b := by
  refine ⟨?_, ?_, ?_⟩
  · show ∃ b1,
      (https_check (http_check (IPData.with_str s) o.httpResp o.httpElapsed)
          o.httpsResp).http = some b1
    rw [https_check_preserves_http]
    exact http_check_resolves _ _ _
  · show ∃ b2,
      (https_check (http_check (IPData.with_str s) o.httpResp o.httpElapsed)
          o.httpsResp).https = some b2
    exact https_check_resolves _ _
  · intro r hr hen
    rw [lookupKV_isSome_iff]
    show r.key ∈ (rulesLoop o.ruleResp cfg 0 []).map Prod.fst
    rw [mem_keys_rulesLoop]
    refine Or.inl ?_
    simp only [enabledKeys, List.mem_map, List.mem_filter]
    exact ⟨r, ⟨hr, hen⟩, rfl⟩

/-- C1 witness: a single enabled rule and an oracle failing every request
still yields a resolved boolean for the rule. -/
theorem C1_pipeline_resolves_witness :
    (RuleData.mk "r1" "http://x" none true
          ∈ [RuleData.mk "r1" "http://x" none true]
        ∧ (RuleData.mk "r1" "http://x" none true).enable = true)
      ∧ ∃ b, lookupKV
            (start_check [RuleData.mk "r1" "http://x" none true]
              (Oracle.mk (Except.error ()) 1 (Except.error ())
                (fun _ => Except.error ())) "1.2.3.4:80").rules
            (RuleData.mk "r1" "http://x" none true).key = some b :=
  ⟨⟨List.mem_cons_self .., rfl⟩,
    (C1_pipeline_resolves [RuleData.mk "r1" "http://x" none true]
        (Oracle.mk (Except.error ()) 1 (Except.error ())
          (fun _ => Except.error ())) "1.2.3.4:80").2.2
      (RuleData.mk "r1" "http://x" none true) (List.mem_cons_self ..) rfl⟩

/-- C8: for an enabled rule at position `i` of the configured list, the
recorded result is true iff the probe completed and, whenever
`containsSubstring` is (truthily) set, the body contains it; and a probe
change affecting only rule `i` leaves every other enabled rule's recorded
result unchanged. -/
theorem C8_rule_outcomes_isolated (cfg : List RuleData)
    (probe probe' : Nat → Except Unit String) (ip ip' : IPData)
    (i : Nat) (r : RuleData) (hnd : (enabledKeys cfg).Nodup)
    (hi : cfg[i]? = some r) (hen : r.enable = true) :
    lookupKV (rules_check cfg probe ip).rules r.key
        = some (ruleOutcome r (probe i))
      ∧ (ruleOutcome r (probe i) = true ↔
          ∃ body, probe i = Except.ok body
            ∧ (optTruthy r.contains = false
                ∨ strContainsSub body (r.contains.getD "") = true))
      ∧ ((∀ j, j ≠ i → probe' j = probe j) →
          ∀ (j : Nat) (rj : RuleData), j ≠ i → cfg[j]? = some rj →
            rj.enable = true →
            lookupKV (rules_check cfg probe' ip').rules rj.key
              = lookupKV (rules_check cfg probe ip).rules rj.key) := by
  refine ⟨lookupKV_rules_check cfg probe ip i r hnd hi hen, ?_, ?_⟩
  · cases hpi : probe i with
    | error u => simp [ruleOutcome]
    | ok body =>
      cases hc : r.contains with
      | none => simp [ruleOutcome, optTruthy, hc]
      | some sub =>
        by_cases hs : sub == ""
        · have hsub : sub = "" := by simpa using hs
          subst hsub
          simp [ruleOutcome, optTruthy, hc]
        · simp [ruleOutcome, optTruthy, hc, hs]
  · intro hagree j rj hij hje hen'
    rw [lookupKV_rules_check cfg probe' ip' j rj hnd hje hen',
      lookupKV_rules_check cfg probe ip j rj hnd hje hen', hagree j hij]

/-- C8 witness: rule with `containsSubstring = "hello"`; a body
`"hello world"` yields true, `"goodbye"` yields false. -/
theorem C8_rule_outcomes_isolated_witness :
    ((enabledKeys [RuleData.mk "r1" "http://x" (some "hello") true]).Nodup
        ∧ [RuleData.mk "r1" "http://x" (some "hello") true][0]?
            = some (RuleData.mk "r1" "http://x" (some "hello") true)
        ∧ (RuleData.mk "r1" "http://x" (some "hello") true).enable = true)
      ∧ ruleOutcome (RuleData.mk "r1" "http://x" (some "hello") true)
            (Except.ok "hello world") = true
      ∧ ruleOutcome (RuleData.mk "r1" "http://x" (some "hello") true)
            (Except.ok "goodbye") = false
      ∧ lookupKV (rules_check [RuleData.mk "r1" "http://x" (some "hello") true]
            (fun _ => Except.ok "hello world") (IPData.with_str "p")).rules
            (RuleData.mk "r1" "http://x" (some "hello") true).key
          = some (ruleOutcome (RuleData.mk "r1" "http://x" (some "hello") true)
              ((fun _ => Except.ok "hello world") 0)) :=
  ⟨⟨by decide, rfl, rfl⟩, by decide, by decide,
    (C8_rule_outcomes_isolated [RuleData.mk "r1" "http://x" (some "hello") true]
        (fun _ => Except.ok "hello world") (fun _ => Except.ok "hello world")
        (IPData.with_str "p") (IPData.with_str "p") 0
        (RuleData.mk "r1" "http://x" (some "hello") true)
        (by decide) rfl rfl).1⟩

/-! ## The banded rescan (C2) -/

theorem resendLoop_eq_append (inc : Int) (pool : List (String × Int)) :
    ∀ (starts : List Int) (queue : List String),
      resendLoop inc pool starts queue
        = queue ++ starts.flatMap fun i => zrangebyscore pool i (i + inc - 1) := by
  intro starts
  induction starts with
  | nil => intro queue; simp [resendLoop]
  | cons i rest ih =>
    intro queue
    simp only [resendLoop, List.flatMap_cons]
    by_cases he : (zrangebyscore pool i (i + inc - 1)).isEmpty
    · rw [if_pos he, ih]
      rw [List.isEmpty_iff.mp he]
      simp
    · rw [if_neg he, ih, List.append_assoc]

theorem zrangebyscore_cons (a : String) (t : Int) (rest : List (String × Int))
    (lo hi : Int) :
    zrangebyscore ((a, t) :: rest) lo hi
      = if lo ≤ t ∧ t ≤ hi then a :: zrangebyscore rest lo hi
        else zrangebyscore rest lo hi := by
  by_cases h1 : lo ≤ t <;> by_cases h2 : t ≤ hi <;>
    simp [zrangebyscore, List.filter_cons, h1, h2]

theorem count_zrangebyscore_of_notMem {pool : List (String × Int)} {e : String}
    (h : e ∉ pool.map Prod.fst) (lo hi : Int) :
    List.count e (zrangebyscore pool lo hi) = 0 := by
  rw [List.count_eq_zero]
  intro hmem
  rcases mem_zrangebyscore.mp hmem with ⟨s, hm, -, -⟩
  exact h (List.mem_map.mpr ⟨(e, s), hm, rfl⟩)

theorem count_zrangebyscore {pool : List (String × Int)} {e : String} {s : Int}
    (hnd : (pool.map Prod.fst).Nodup) (hmem : (e, s) ∈ pool) (lo hi : Int) :
    List.count e (zrangebyscore pool lo hi)
      = if lo ≤ s ∧ s ≤ hi then 1 else 0 := by
  induction pool with
  | nil => cases hmem
  | cons p rest ih =>
    obtain ⟨a, t⟩ := p
    rw [List.map_cons, List.nodup_cons] at hnd
    rcases List.mem_cons.mp hmem with h0 | h0
    · obtain ⟨he, hs⟩ := Prod.ext_iff.mp h0
      subst he; subst hs
      have hzr : List.count e (zrangebyscore rest lo hi) = 0 :=
        count_zrangebyscore_of_notMem hnd.1 lo hi
      rw [zrangebyscore_cons]
      by_cases hr : lo ≤ s ∧ s ≤ hi
      · rw [if_pos hr, if_pos hr, List.count_cons_self, hzr]
      · rw [if_neg hr, if_neg hr, hzr]
    · have hne : e ≠ a := by
        rintro rfl
        exact hnd.1 (List.mem_map.mpr ⟨(e, s), h0, rfl⟩)
      rw [zrangebyscore_cons]
      by_cases hr : lo ≤ t ∧ t ≤ hi
      · rw [if_pos hr, List.count_cons_of_ne hne, ih hnd.2 h0]
      · rw [if_neg hr, ih hnd.2 h0]

theorem countP_eq_sum_map_ind (p : Int → Bool) (l : List Int) :
    l.countP p = (l.map fun a => if p a then (1 : Nat) else 0).sum := by
  induction l with
  | nil => rfl
  | cons a t ih =>
    by_cases h : p a <;> simp [List.countP_cons, h, ih, Nat.add_comm]

theorem sum_range_indicator (k0 : Nat) :
    ∀ K : Nat,
      ((List.range K).map fun k => if k = k0 then (1 : Nat) else 0).sum
        = if k0 < K then 1 else 0 := by
  intro K
  induction K with
  | zero => simp
  | succ n ih =>
    rw [List.range_succ, List.map_append, List.sum_append, ih]
    by_cases h : k0 < n
    · have hne : ¬(n = k0) := by omega
      have hlt : k0 < n + 1 := by omega
      simp [h, hne, hlt]
    · by_cases he : n = k0
      · subst he
        simp [h]
      · have hnlt : ¬(k0 < n + 1) := by omega
        simp [h, he, hnlt]

theorem nat_div_eq_iff {d incn k : Nat} (hpos : 0 < incn) :
    k = d / incn ↔ incn * k ≤ d ∧ d < incn * (k + 1) := by
  constructor
  · rintro rfl
    refine ⟨?_, ?_⟩
    · calc incn * (d / incn) = (d / incn) * incn := Nat.mul_comm ..
        _ ≤ d := Nat.div_mul_le_self d incn
    · have hmod : d % incn < incn := Nat.mod_lt _ hpos
      have hdm : incn * (d / incn) + d % incn = d := Nat.div_add_mod d incn
      calc d = incn * (d / incn) + d % incn := hdm.symm
        _ < incn * (d / incn) + incn := by omega
        _ = incn * (d / incn + 1) := by ring
  · rintro ⟨h1, h2⟩
    have hk1 : k ≤ d / incn :=
      (Nat.le_div_iff_mul_le hpos).mpr (by rw [Nat.mul_comm]; exact h1)
    have hk2 : d / incn < k + 1 :=
      (Nat.div_lt_iff_lt_mul hpos).mpr (by rw [Nat.mul_comm (k + 1)]; exact h2)
    omega

theorem band_hit_iff {mini inc s : Int} (hinc : 1 ≤ inc) (hlo : mini < s)
    (k : Nat) :
    (mini + 1 + inc * (k : Int) ≤ s
        ∧ s ≤ mini + 1 + inc * (k : Int) + inc - 1)
      ↔ k = (s - (mini + 1)).toNat / inc.toNat := by
  have hd : (((s - (mini + 1)).toNat : Nat) : Int) = s - (mini + 1) :=
    Int.toNat_of_nonneg (by omega)
  have hincn : ((inc.toNat : Nat) : Int) = inc := Int.toNat_of_nonneg (by omega)
  have hpos : 0 < inc.toNat := by omega
  rw [nat_div_eq_iff hpos]
  have key1 : inc.toNat * k ≤ (s - (mini + 1)).toNat
      ↔ inc * (k : Int) ≤ s - (mini + 1) := by
    rw [← Nat.cast_le (α := ℤ), Nat.cast_mul, hincn, hd]
  have key2 : (s - (mini + 1)).toNat < inc.toNat * (k + 1)
      ↔ s - (mini + 1) < inc * ((k : Int) + 1) := by
    rw [← Nat.cast_lt (α := ℤ), Nat.cast_mul, hincn, hd, Nat.cast_add,
      Nat.cast_one]
  rw [key1, key2]
  have hmul : inc * ((k : Int) + 1) = inc * (k : Int) + inc := by ring
  constructor
  · rintro ⟨h1, h2⟩
    exact ⟨by linarith, by linarith⟩
  · rintro ⟨h1, h2⟩
    exact ⟨by linarith, by linarith⟩

theorem k0_lt_rangeLen {mini maxs inc s : Int} (hinc : 1 ≤ inc)
    (hlo : mini < s) (hhi : s ≤ maxs) :
    (s - (mini + 1)).toNat / inc.toNat
      < pyRangeLen (mini + 1) (maxs + inc) inc := by
  have hpos : 0 < inc.toNat := by omega
  show _ < ((maxs + inc - (mini + 1)).toNat + inc.toNat - 1) / inc.toNat
  have h1 : (maxs + inc - (mini + 1)).toNat
      = (maxs - (mini + 1)).toNat + inc.toNat := by omega
  rw [h1]
  have h2 : (s - (mini + 1)).toNat ≤ (maxs - (mini + 1)).toNat := by omega
  have h3 : (maxs - (mini + 1)).toNat + inc.toNat
      ≤ (maxs - (mini + 1)).toNat + inc.toNat + inc.toNat - 1 := by omega
  calc (s - (mini + 1)).toNat / inc.toNat
      ≤ (maxs - (mini + 1)).toNat / inc.toNat := Nat.div_le_div_right h2
    _ < ((maxs - (mini + 1)).toNat + inc.toNat) / inc.toNat := by
        rw [Nat.add_div_right _ hpos]; omega
    _ ≤ ((maxs - (mini + 1)).toNat + inc.toNat + inc.toNat - 1) / inc.toNat :=
        Nat.div_le_div_right h3

theorem bandStarts_hit_sum {mini maxs inc s : Int} (hinc : 1 ≤ inc)
    (hlo : mini < s) (hhi : s ≤ maxs) :
    ((bandStarts mini maxs inc).map
        fun i => if i ≤ s ∧ s ≤ i + inc - 1 then (1 : Nat) else 0).sum = 1 := by
  rw [bandStarts, pyRange, List.map_map]
  have hcong : ∀ k ∈ List.range (pyRangeLen (mini + 1) (maxs + inc) inc),
      ((fun i => if i ≤ s ∧ s ≤ i + inc - 1 then (1 : Nat) else 0) ∘
          fun k : Nat => mini + 1 + inc * (k : Int)) k
        = if k = (s - (mini + 1)).toNat / inc.toNat then (1 : Nat) else 0 := by
    intro k _
    simp only [Function.comp]
    by_cases hb : mini + 1 + inc * (k : Int) ≤ s
        ∧ s ≤ mini + 1 + inc * (k : Int) + inc - 1
    · rw [if_pos hb, if_pos ((band_hit_iff hinc hlo k).mp hb)]
    · rw [if_neg hb, if_neg fun he => hb ((band_hit_iff hinc hlo k).mpr he)]
  rw [List.map_congr_left hcong, sum_range_indicator,
    if_pos (k0_lt_rangeLen hinc hlo hhi)]

/-- C2: in a rebalance cycle whose backpressure guard passes, the check
queue receives exactly the band-ordered concatenation of the band queries
and the pool is untouched; every pool endpoint with score in
`(MIN_SCORE, MAX_SCORE]` is pushed exactly once; the visited bands are in
strictly increasing order; and such a score falls in exactly one visited
band `[i, i + INC_SCORE - 1]`. -/
theorem C2_banded_rescan (mini maxs inc : Int) (rate : ℚ) (st : StoreState)
    (hinc : 1 ≤ inc) (hnd : (st.ipPool.map Prod.fst).Nodup)
    (hguard : ¬((st.ipPool.length : ℚ) * rate ≤ (st.checkPool.length : ℚ)))
    (e : String) (s : Int)
    (hmem : (e, s) ∈ st.ipPool) (hlo : mini < s) (hhi : s ≤ maxs) :
    (resend_check_ip mini maxs inc rate st).checkPool
        = st.checkPool ++ bandPushes mini maxs inc st.ipPool
      ∧ (resend_check_ip mini maxs inc rate st).ipPool = st.ipPool
      ∧ List.count e (bandPushes mini maxs inc st.ipPool) = 1
      ∧ (bandStarts mini maxs inc).Pairwise (· < ·)
      ∧ (bandStarts mini maxs inc).countP
          (fun i => decide (i ≤ s ∧ s ≤ i + inc - 1)) = 1 := by
  refine ⟨?_, ?_, ?_, ?_, ?_⟩
  · unfold resend_check_ip
    rw [if_neg hguard]
    exact resendLoop_eq_append inc st.ipPool (bandStarts mini maxs inc)
      st.checkPool
  · unfold resend_check_ip
    rw [if_neg hguard]
  · rw [bandPushes, List.count_flatMap]
    have hcong : ∀ i ∈ bandStarts mini maxs inc,
        (List.count e ∘ fun i => zrangebyscore st.ipPool i (i + inc - 1)) i
          = if i ≤ s ∧ s ≤ i + inc - 1 then (1 : Nat) else 0 := by
      intro i _
      exact count_zrangebyscore hnd hmem i (i + inc - 1)
    rw [List.map_congr_left hcong]
    exact bandStarts_hit_sum hinc hlo hhi
  · rw [bandStarts, pyRange]
    refine List.Pairwise.map _ ?_ (List.pairwise_lt_range _)
    intro a b hab
    have hab' : (a : Int) < (b : Int) := by exact_mod_cast hab
    have hmul : inc * (a : Int) < inc * (b : Int) :=
      mul_lt_mul_of_pos_left hab' (by omega)
    linarith
  · rw [countP_eq_sum_map_ind]
    have hcong : ∀ i ∈ bandStarts mini maxs inc,
        (if decide (i ≤ s ∧ s ≤ i + inc - 1) then (1 : Nat) else 0)
          = if i ≤ s ∧ s ≤ i + inc - 1 then (1 : Nat) else 0 := by
      intro i _
      simp
    rw [List.map_congr_left hcong]
    exact bandStarts_hit_sum hinc hlo hhi

/-- C2 witness: bands of width 10 over `(0, 100]`, a pool holding one
endpoint with score 5, empty queue with rate 1. -/
theorem C2_banded_rescan_witness :
    ((1 : Int) ≤ 10
        ∧ ((StoreState.mk [] [("a", (5 : Int))]).ipPool.map Prod.fst).Nodup
        ∧ ¬(((StoreState.mk [] [("a", (5 : Int))]).ipPool.length : ℚ) * 1
            ≤ ((StoreState.mk [] [("a", (5 : Int))]).checkPool.length : ℚ))
        ∧ ("a", (5 : Int)) ∈ (StoreState.mk [] [("a", (5 : Int))]).ipPool
        ∧ (0 : Int) < 5 ∧ (5 : Int) ≤ 100)
      ∧ List.count "a"
          (bandPushes 0 100 10 (StoreState.mk [] [("a", (5 : Int))]).ipPool)
        = 1 :=
  ⟨⟨by decide, by decide, by norm_num, by decide, by decide, by decide⟩,
    (C2_banded_rescan 0 100 10 1 (StoreState.mk [] [("a", (5 : Int))])
      (by decide) (by decide) (by norm_num) "a" 5 (by decide) (by decide)
      (by decide)).2.2.1⟩
